import Mathlib

/-!
Shallow embedding of the substep-scheduling and double-buffering core of
`GPUSimulators/EE2D_KP07_dimsplit.py` (class `EE2D_KP07_dimsplit`).

The scheduling code is modelled as a pure function from the simulator's
geometry and the call arguments to a trace of device-queue events: kernel
launches (with their grid dimensions, stream, time step, substep index,
sub-rectangle and CFL-buffer argument), stream synchronizations, device
reads, host/device copies, and resource releases.  Machine floats passed
through unchanged (`dt`) are modelled as rationals; C `int` quantities as
`Int`.  The host-side minimum extraction of `min_hipblas` is modelled as a
function on lists of rationals mirroring the BLAS `Isamin` call it uses.
-/

namespace EE2D

/-- The two execution queues of the simulator: `self.stream` (primary) and
`self.internal_stream` (secondary, used by internal-only launches). -/
inductive Stream
| primary
| internal
deriving DecidableEq, BEq

/-- An axis-aligned sub-rectangle `[x0, x1) × [y0, y1)` in cell-index space,
as passed to the kernel in its last four arguments. -/
structure Rect where
  x0 : Int
  y0 : Int
  x1 : Int
  y1 : Int
deriving DecidableEq

/-- One `hipModuleLaunchKernel` call: its grid dimensions, the stream it is
enqueued on, the `dt` and `substep` arguments passed to the kernel, the
sub-rectangle arguments, and whether `self.cfl_data` is passed (it is, at
every launch site of the source). -/
structure Launch where
  grid : Nat × Nat × Nat
  stream : Stream
  dt : Rat
  substep : Int
  rect : Rect
  writesCfl : Bool
deriving DecidableEq

/-- Host-visible events issued by the scheduling code, in program order. -/
inductive Event
| launch (l : Launch)
| syncStream (s : Stream)
| devReadCflIsamin
| memcpyIdxToHost (s : Stream)
| memcpyCflToHost (s : Stream)
| hostReadCfl
| streamDestroy (s : Stream)
| freeCfl
| warn
deriving DecidableEq

/-- Geometry state of a simulator instance: `self.nx`, `self.ny`, the halo
widths of its field arrays (`self.u0[0].x_halo` / `y_halo`, both constructed
as 2), and `self.grid_size`. -/
structure Sim where
  nx : Int
  ny : Int
  x_halo : Int
  y_halo : Int
  grid : Nat × Nat × Nat
deriving DecidableEq

/-- Full-domain rectangle `(0, 0) × (nx, ny)` of the `external and internal`
branch. -/
def fullRect (sim : Sim) : Rect :=
  ⟨0, 0, sim.nx, sim.ny⟩

/-- North boundary rectangle `(0, ny - y_halo) × (nx, ny)`. -/
def northRect (sim : Sim) : Rect :=
  ⟨0, sim.ny - sim.y_halo, sim.nx, sim.ny⟩

/-- South boundary rectangle `(0, 0) × (nx, y_halo)`. -/
def southRect (sim : Sim) : Rect :=
  ⟨0, 0, sim.nx, sim.y_halo⟩

/-- West boundary rectangle `(0, 0) × (x_halo, ny)`. -/
def westRect (sim : Sim) : Rect :=
  ⟨0, 0, sim.x_halo, sim.ny⟩

/-- East boundary rectangle `(nx - x_halo, 0) × (nx, ny)`. -/
def eastRect (sim : Sim) : Rect :=
  ⟨sim.nx - sim.x_halo, 0, sim.nx, sim.ny⟩

/-- Internal-domain rectangle `(x_halo, y_halo) × (nx - x_halo, ny - y_halo)`
of the `internal and not external` branch. -/
def internalRect (sim : Sim) : Rect :=
  ⟨sim.x_halo, sim.y_halo, sim.nx - sim.x_halo, sim.ny - sim.y_halo⟩

/-- Event trace of `substepDimsplit(self, dt, substep, external, internal)`:
the branch on the two flags, the kernel launches each branch issues (with
`ns_grid_size = (grid_size[0], 1, 1)` and `we_grid_size = (1, grid_size[1], 1)`
for the boundary strips) and the `hipStreamSynchronize(self.stream)` calls
placed after the north, south and west launches.  When both flags are false
the function falls through all three `if` statements and returns. -/
def substepDimsplit (sim : Sim) (dt : Rat) (substep : Int)
    (external internal : Bool) : List Event :=
  if external && internal then
    [Event.launch ⟨sim.grid, Stream.primary, dt, substep, fullRect sim, true⟩]
  else if external && !internal then
    [Event.launch ⟨(sim.grid.1, 1, 1), Stream.primary, dt, substep, northRect sim, true⟩,
     Event.syncStream Stream.primary,
     Event.launch ⟨(sim.grid.1, 1, 1), Stream.primary, dt, substep, southRect sim, true⟩,
     Event.syncStream Stream.primary,
     Event.launch ⟨(1, sim.grid.2.1, 1), Stream.primary, dt, substep, westRect sim, true⟩,
     Event.syncStream Stream.primary,
     Event.launch ⟨(1, sim.grid.2.1, 1), Stream.primary, dt, substep, eastRect sim, true⟩]
  else if internal && !external then
    [Event.launch ⟨sim.grid, Stream.internal, dt, substep, internalRect sim, true⟩]
  else
    []

/-- Event trace of `substep(self, dt, step_number, external, internal)`:
a single call `substepDimsplit(0.5*dt, step_number, external, internal)`. -/
def substep (sim : Sim) (dt : Rat) (step_number : Int)
    (external internal : Bool) : List Event :=
  substepDimsplit sim ((1/2) * dt) step_number external internal

/-- Event trace of `min_hipblas(self, num_elements, cfl_data, stream)`:
the `hipblasIsamin` device read of the CFL buffer, the two async
device-to-host copies on `stream`, the `hipStreamSynchronize(stream)`, the
host read of the copied buffer (`x_temp.flatten()[indx_h[0]-1]`), then
`hipStreamDestroy(stream)` and `hipFree(cfl_data)`. -/
def min_hipblasTrace (s : Stream) : List Event :=
  [Event.devReadCflIsamin,
   Event.memcpyIdxToHost s,
   Event.memcpyCflToHost s,
   Event.syncStream s,
   Event.hostReadCfl,
   Event.streamDestroy s,
   Event.freeCfl]

/-- Event trace of `computeDt(self)`: it calls `min_hipblas` with
`self.stream`, the primary stream. -/
def computeDtTrace : List Event :=
  min_hipblasTrace Stream.primary

/-- The launches occurring in a trace, in order. -/
def launchesOf (tr : List Event) : List Launch :=
  tr.filterMap fun e =>
    match e with
    | Event.launch l => some l
    | _ => none

/-- Test for a synchronization event on a given stream. -/
def Event.isSyncOn (e : Event) (t : Stream) : Bool :=
  match e, t with
  | Event.syncStream Stream.primary, Stream.primary => true
  | Event.syncStream Stream.internal, Stream.internal => true
  | _, _ => false

/-- Holds when every launch event of the trace is followed, later in the
same trace, by a synchronization event on the stream it was enqueued on. -/
def everyLaunchSynced : List Event → Bool
  | [] => true
  | Event.launch l :: rest =>
      (rest.any fun e => e.isSyncOn l.stream) && everyLaunchSynced rest
  | _ :: rest => everyLaunchSynced rest

/-- Barrier discipline for the CFL buffer: scanning the trace in program
order while carrying the list of streams holding not-yet-synchronized
launches that were passed the CFL buffer, every host read of the buffer must
find that list empty — i.e. a synchronization on every writing stream was
executed between each write and the read. -/
def cflReadSafe : List Event → List Stream → Bool
  | [], _ => true
  | Event.launch l :: rest, pending =>
      cflReadSafe rest (if l.writesCfl then l.stream :: pending else pending)
  | Event.syncStream s :: rest, pending =>
      cflReadSafe rest (pending.filter fun t => !(t == s))
  | Event.hostReadCfl :: rest, pending =>
      pending.isEmpty && cflReadSafe rest pending
  | _ :: rest, pending => cflReadSafe rest pending

/-- Set of cells of a rectangle `[x0, x1) × [y0, y1)`. -/
def Rect.cells (r : Rect) : Set (Int × Int) :=
  {p | r.x0 ≤ p.1 ∧ p.1 < r.x1 ∧ r.y0 ≤ p.2 ∧ p.2 < r.y1}

/-- BLAS `Isamin` as called by `min_hipblas`: the 1-based index of the first
element of minimum absolute value (0 on an empty buffer).  `hipblasIsamin`
is the external BLAS routine; this is its documented result. -/
def isamin : List Rat → Nat
  | [] => 0
  | x :: xs =>
      if isamin xs = 0 then 1
      else if |xs.getD (isamin xs - 1) 0| < |x| then isamin xs + 1
      else 1

/-- Value returned by `min_hipblas`: the buffer element at the 0-based index
`indx_h[0] - 1`, where `indx_h[0]` is the `hipblasIsamin` result. -/
def min_hipblas (xs : List Rat) : Rat :=
  xs.getD (isamin xs - 1) 0

/-- Value returned by `computeDt`: `max_dt * 0.5` where `max_dt` is the
`min_hipblas` result over the CFL buffer. -/
def computeDt (xs : List Rat) : Rat :=
  min_hipblas xs * (1/2)

/-- The ping-pong pair of field sets `self.u0` (current) and `self.u1`
(next); the field sets themselves are opaque to the scheduling core. -/
structure FieldPair (α : Type) where
  u0 : α
  u1 : α
deriving DecidableEq

/-- The buffer swap `self.u0, self.u1 = self.u1, self.u0` of
`swapBuffers(self)`. -/
def swapBuffers {α : Type} (s : FieldPair α) : FieldPair α :=
  ⟨s.u1, s.u0⟩

/-- `getOutput(self)` returns `self.u0`. -/
def getOutput {α : Type} (s : FieldPair α) : α :=
  s.u0

/-- Device-resource state tracked across `computeDt`: whether the CFL buffer
is still allocated and whether each stream still exists. -/
structure Resources where
  cflAllocated : Bool
  primaryAlive : Bool
  internalAlive : Bool
deriving DecidableEq

/-- Effect of one event on the resource state. -/
def stepResources (r : Resources) (e : Event) : Resources :=
  match e with
  | Event.freeCfl => { r with cflAllocated := false }
  | Event.streamDestroy Stream.primary => { r with primaryAlive := false }
  | Event.streamDestroy Stream.internal => { r with internalAlive := false }
  | _ => r

/-- Resource state after a trace. -/
def runResources (r : Resources) (tr : List Event) : Resources :=
  tr.foldl stepResources r

/-- A concrete simulator geometry used to instantiate the theorems:
an 8 × 8 grid with the halo widths 2 fixed by the constructor. -/
def sim0 : Sim :=
  ⟨8, 8, 2, 2, (1, 1, 1)⟩

/-- C5: when both flags are true, `substepDimsplit` issues exactly one
kernel launch, with sub-rectangle arguments `x0 = 0, y0 = 0, x1 = nx,
y1 = ny` (the full rectangle), on the primary stream, and issues no other
launch and no synchronization in that call. -/
theorem substepDimsplit_both_flags_single_full_launch
    (sim : Sim) (dt : Rat) (n : Int) :
    substepDimsplit sim dt n true true =
      [Event.launch ⟨sim.grid, Stream.primary, dt, n, ⟨0, 0, sim.nx, sim.ny⟩, true⟩] ∧
    (launchesOf (substepDimsplit sim dt n true true)).length = 1 ∧
    ∀ s : Stream, Event.syncStream s ∉ substepDimsplit sim dt n true true := by
  refine ⟨rfl, rfl, ?_⟩
  intro s
  simp [substepDimsplit, fullRect, launchesOf]

/-- C6: in internal-only mode, `substepDimsplit` issues exactly one kernel
launch, whose sub-rectangle is `(x_halo, y_halo) × (nx - x_halo, ny - y_halo)`,
enqueued on the secondary (internal) stream, which is distinct from the
primary stream. -/
theorem substepDimsplit_internal_only_launch
    (sim : Sim) (dt : Rat) (n : Int) :
    substepDimsplit sim dt n false true =
      [Event.launch ⟨sim.grid, Stream.internal, dt, n,
        ⟨sim.x_halo, sim.y_halo, sim.nx - sim.x_halo, sim.ny - sim.y_halo⟩, true⟩] ∧
    (launchesOf (substepDimsplit sim dt n false true)).length = 1 ∧
    Stream.internal ≠ Stream.primary := by
  exact ⟨rfl, rfl, by decide⟩

/-- C3 counterexample: with a concrete 8 × 8 simulator, the external-only
trace does not satisfy the stated property that each of the four launches is
followed by a synchronization barrier on its stream: the east launch, issued
last, is followed by no synchronization in that call. -/
theorem substepDimsplit_external_east_unsynced :
    everyLaunchSynced (substepDimsplit sim0 1 0 true false) = false := by
  rfl

/-- C3 amended: in external-only mode, `substepDimsplit` issues exactly four
kernel launches, in the fixed order north, south, west, east, all on the
primary stream, and each of the first three launches is followed by a
synchronization barrier on the primary stream before the next launch; the
final east launch is followed by no synchronization within the call. -/
theorem substepDimsplit_external_only_trace
    (sim : Sim) (dt : Rat) (n : Int) :
    substepDimsplit sim dt n true false =
      [Event.launch ⟨(sim.grid.1, 1, 1), Stream.primary, dt, n, northRect sim, true⟩,
       Event.syncStream Stream.primary,
       Event.launch ⟨(sim.grid.1, 1, 1), Stream.primary, dt, n, southRect sim, true⟩,
       Event.syncStream Stream.primary,
       Event.launch ⟨(1, sim.grid.2.1, 1), Stream.primary, dt, n, westRect sim, true⟩,
       Event.syncStream Stream.primary,
       Event.launch ⟨(1, sim.grid.2.1, 1), Stream.primary, dt, n, eastRect sim, true⟩] ∧
    (launchesOf (substepDimsplit sim dt n true false)).map Launch.rect =
      [northRect sim, southRect sim, westRect sim, eastRect sim] ∧
    (launchesOf (substepDimsplit sim dt n true false)).all
      (fun l => l.stream == Stream.primary) = true := by
  exact ⟨rfl, rfl, rfl⟩

/-- C9 counterexample: calling `substepDimsplit` with both flags false emits
no warning: the trace of the concrete call is empty, so no warning event is
produced, contrary to the claim. -/
theorem substepDimsplit_no_flags_no_warning :
    Event.warn ∉ substepDimsplit sim0 1 0 false false := by
  simp [substepDimsplit, sim0]

/-- C9 amended: calling `substepDimsplit` with both flags false is a silent
no-op: the function falls through all branches and returns, issuing no
kernel launch, no synchronization, no state modification and raising no
exception — but it also emits no warning. -/
theorem substepDimsplit_no_flags_noop
    (sim : Sim) (dt : Rat) (n : Int) :
    substepDimsplit sim dt n false false = [] ∧
    Event.warn ∉ substepDimsplit sim dt n false false := by
  exact ⟨rfl, by simp [substepDimsplit]⟩

/-- C4: `substep(dt, step_number, external, internal)` delegates to
`substepDimsplit` with time step `0.5 * dt` and substep index equal to
`step_number`; consequently every kernel launch it issues receives time step
`0.5 * dt` and substep index `step_number` unchanged. -/
theorem substep_halves_dt_keeps_index
    (sim : Sim) (dt : Rat) (n : Int) (external internal : Bool) :
    substep sim dt n external internal =
      substepDimsplit sim ((1/2) * dt) n external internal ∧
    ∀ l ∈ launchesOf (substep sim dt n external internal),
      l.dt = (1/2) * dt ∧ l.substep = n := by
  refine ⟨rfl, ?_⟩
  intro l hl
  cases external <;> cases internal <;>
    simp [substep, substepDimsplit, launchesOf] at hl <;>
    rcases hl with rfl | rfl | rfl | rfl <;> exact ⟨by norm_num, rfl⟩

/-- C4 witness: at the concrete simulator `sim0` with `dt = 2`,
`step_number = 0` and both flags true, the single launch of the trace
receives time step `(1/2) * 2` and substep index `0`. -/
theorem substep_halves_dt_keeps_index_witness :
    (⟨sim0.grid, Stream.primary, (1/2) * 2, 0, fullRect sim0, true⟩ : Launch) ∈
      launchesOf (substep sim0 2 0 true true) ∧
    ((⟨sim0.grid, Stream.primary, (1/2) * 2, 0, fullRect sim0, true⟩ : Launch).dt
        = (1/2) * 2 ∧
     (⟨sim0.grid, Stream.primary, (1/2) * 2, 0, fullRect sim0, true⟩ : Launch).substep
        = 0) := by
  refine ⟨List.Mem.head _, ?_⟩
  exact (substep_halves_dt_keeps_index sim0 2 0 true true).2 _ (List.Mem.head _)

/-- C7: `swapBuffers` exchanges only the roles of the two field sets — the
new current is the old next and the new next is the old current, with the
field sets themselves unchanged (no data copied); running it twice returns
the pair to its original role assignment; and `getOutput` always returns the
field set currently in the current (readable) role. -/
theorem swapBuffers_involutive_getOutput_current
    (α : Type) (s : FieldPair α) :
    swapBuffers (swapBuffers s) = s ∧
    (swapBuffers s).u0 = s.u1 ∧
    (swapBuffers s).u1 = s.u0 ∧
    getOutput s = s.u0 ∧
    getOutput (swapBuffers s) = s.u1 := by
  exact ⟨rfl, rfl, rfl, rfl, rfl⟩

/-- C1: for every grid with `nx ≥ 2*x_halo` and `ny ≥ 2*y_halo` (halo widths
nonnegative; fixed at 2 in the source constructor), the four boundary
rectangles passed to the kernel in external-only mode, once deduplicated
(set union), cover exactly the boundary strip — the full rectangle minus the
internal-only rectangle; the internal rectangle equals the full rectangle
minus that strip; together they cover the full rectangle and no cell lies in
both. -/
theorem boundary_regions_cover_strip (sim : Sim)
    (hx0 : 0 ≤ sim.x_halo) (hy0 : 0 ≤ sim.y_halo)
    (hx : 2 * sim.x_halo ≤ sim.nx) (hy : 2 * sim.y_halo ≤ sim.ny) :
    ((northRect sim).cells ∪ (southRect sim).cells ∪
        (westRect sim).cells ∪ (eastRect sim).cells) =
      (fullRect sim).cells \ (internalRect sim).cells ∧
    (internalRect sim).cells =
      (fullRect sim).cells \
        ((northRect sim).cells ∪ (southRect sim).cells ∪
          (westRect sim).cells ∪ (eastRect sim).cells) ∧
    ((northRect sim).cells ∪ (southRect sim).cells ∪
        (westRect sim).cells ∪ (eastRect sim).cells) ∪
      (internalRect sim).cells = (fullRect sim).cells ∧
    ((northRect sim).cells ∪ (southRect sim).cells ∪
        (westRect sim).cells ∪ (eastRect sim).cells) ∩
      (internalRect sim).cells = ∅ := by
  refine ⟨?_, ?_, ?_, ?_⟩ <;>
    ext ⟨x, y⟩ <;>
    simp [Rect.cells, northRect, southRect, westRect, eastRect,
      fullRect, internalRect] <;>
    omega

/-- C1 witness: the cover decomposition at the concrete 8 × 8 grid with halo
widths 2. -/
theorem boundary_regions_cover_strip_witness :
    ((0 : Int) ≤ sim0.x_halo ∧ (0 : Int) ≤ sim0.y_halo ∧
      2 * sim0.x_halo ≤ sim0.nx ∧ 2 * sim0.y_halo ≤ sim0.ny) ∧
    (((northRect sim0).cells ∪ (southRect sim0).cells ∪
        (westRect sim0).cells ∪ (eastRect sim0).cells) =
      (fullRect sim0).cells \ (internalRect sim0).cells ∧
    (internalRect sim0).cells =
      (fullRect sim0).cells \
        ((northRect sim0).cells ∪ (southRect sim0).cells ∪
          (westRect sim0).cells ∪ (eastRect sim0).cells) ∧
    ((northRect sim0).cells ∪ (southRect sim0).cells ∪
        (westRect sim0).cells ∪ (eastRect sim0).cells) ∪
      (internalRect sim0).cells = (fullRect sim0).cells ∧
    ((northRect sim0).cells ∪ (southRect sim0).cells ∪
        (westRect sim0).cells ∪ (eastRect sim0).cells) ∩
      (internalRect sim0).cells = ∅) := by
  exact ⟨⟨by decide, by decide, by decide, by decide⟩,
    boundary_regions_cover_strip sim0 (by decide) (by decide) (by decide) (by decide)⟩

/-- C8 counterexample: in the execution consisting of an internal-only
substep followed by `computeDt`, the CFL buffer is written by a launch on
the secondary internal stream, but no synchronization on that stream occurs
before the host reads the buffer — the barrier discipline claimed for every
execution fails on this one. -/
theorem cfl_read_internal_unsynced :
    cflReadSafe (substep sim0 1 0 false true ++ computeDtTrace) [] = false := by
  rfl

/-- C8 amended: the barrier before the host read of the CFL buffer covers
only the primary stream (the stream `computeDt` passes to `min_hipblas`):
in every execution whose substep launches run on the primary stream
(external-only mode or the combined full-domain mode), a synchronization on
the primary stream is executed after all CFL-writing launches and before the
host read; launches on the secondary internal stream are covered by no such
barrier. -/
theorem cfl_read_primary_synced
    (sim : Sim) (dt : Rat) (n : Int) (internal : Bool) :
    cflReadSafe (substep sim dt n true internal ++ computeDtTrace) [] = true := by
  cases internal <;> rfl

/-- C10: a single call to `computeDt` (through `min_hipblas`) destroys the
primary stream and frees the CFL device buffer before returning, so the
resource state after it has the CFL buffer deallocated and the primary
stream destroyed; any subsequent `substep` call issues at least one kernel
launch, and every launch of the scheduler passes the CFL buffer and runs on
one of the two streams, so it operates on freed or destroyed resources;
a subsequent `computeDt` reads the freed buffer again. -/
theorem computeDt_frees_resources :
    Event.streamDestroy Stream.primary ∈ computeDtTrace ∧
    Event.freeCfl ∈ computeDtTrace ∧
    (runResources ⟨true, true, true⟩ computeDtTrace).cflAllocated = false ∧
    (runResources ⟨true, true, true⟩ computeDtTrace).primaryAlive = false ∧
    (∀ (sim : Sim) (dt : Rat) (n : Int),
      launchesOf (substep sim dt n true true) ≠ [] ∧
      launchesOf (substep sim dt n true false) ≠ [] ∧
      launchesOf (substep sim dt n false true) ≠ [] ∧
      ((launchesOf (substep sim dt n true true)).all fun l => l.writesCfl) = true) ∧
    Event.devReadCflIsamin ∈ computeDtTrace ∧
    Event.hostReadCfl ∈ computeDtTrace := by
  refine ⟨?_, ?_, rfl, rfl, ?_, ?_, ?_⟩
  case refine_3 =>
    intro sim dt n
    exact ⟨by simp [substep, substepDimsplit, launchesOf],
      by simp [substep, substepDimsplit, launchesOf],
      by simp [substep, substepDimsplit, launchesOf], rfl⟩
  all_goals simp [computeDtTrace, min_hipblasTrace]

/-- The `Isamin` result is zero exactly on the empty buffer. -/
theorem isamin_eq_zero_iff (xs : List Rat) : isamin xs = 0 ↔ xs = [] := by
  cases xs with
  | nil => simp [isamin]
  | cons x xs =>
      simp only [isamin]
      split
      · simp
      · split <;> simp

/-- Unfolding of `min_hipblas` on a nonempty buffer: it keeps the tail's
minimum-absolute-value element when that element beats the head strictly,
and the head otherwise (ties kept at the earlier index). -/
theorem min_hipblas_cons (x : Rat) (xs : List Rat) :
    min_hipblas (x :: xs) =
      if isamin xs ≠ 0 ∧ |xs.getD (isamin xs - 1) 0| < |x| then min_hipblas xs
      else x := by
  simp only [min_hipblas, isamin]
  rcases h : isamin xs with _ | k
  · rw [if_pos rfl, if_neg (by simp)]
    exact List.getD_cons_zero
  · rw [if_neg (Nat.succ_ne_zero k)]
    by_cases hlt : |xs.getD (k + 1 - 1) 0| < |x|
    · rw [if_pos hlt, if_pos ⟨Nat.succ_ne_zero k, hlt⟩]
      exact List.getD_cons_succ
    · rw [if_neg hlt, if_neg (fun hc => hlt hc.2)]
      exact List.getD_cons_zero

/-- The `min_hipblas` result is an element of the buffer. -/
theorem min_hipblas_mem (xs : List Rat) (h : xs ≠ []) : min_hipblas xs ∈ xs := by
  induction xs with
  | nil => exact absurd rfl h
  | cons x xs ih =>
      rw [min_hipblas_cons]
      split
      · next hcond =>
          refine List.mem_cons_of_mem x (ih ?_)
          intro hnil
          exact hcond.1 ((isamin_eq_zero_iff xs).mpr hnil)
      · exact List.mem_cons_self x xs

/-- The `min_hipblas` result has the least absolute value in the buffer. -/
theorem min_hipblas_abs_le (xs : List Rat) :
    ∀ y ∈ xs, |min_hipblas xs| ≤ |y| := by
  induction xs with
  | nil => intro y hy; simp at hy
  | cons x xs ih =>
      intro y hy
      have hmin : min_hipblas xs = xs.getD (isamin xs - 1) 0 := rfl
      rw [min_hipblas_cons]
      rcases List.mem_cons.mp hy with rfl | hy'
      · split
        · next hcond => exact le_of_lt (hmin ▸ hcond.2)
        · exact le_refl _
      · split
        · next hcond => exact ih y hy'
        · next hcond =>
            have hne : isamin xs ≠ 0 := by
              intro h0
              rw [(isamin_eq_zero_iff xs).mp h0] at hy'
              simp at hy'
            have hle : |x| ≤ |min_hipblas xs| := by
              rw [hmin]
              by_contra hlt
              exact hcond ⟨hne, lt_of_not_le hlt⟩
            exact le_trans hle (ih y hy')

/-- C2 counterexample: on the buffer `[-2, 1]` the reduction of
`min_hipblas` (BLAS `Isamin`, minimum absolute value) returns `1`, which is
not the minimum element of the buffer: `-2` belongs to the buffer and is
smaller. -/
theorem min_hipblas_not_min_on_negative :
    min_hipblas [-2, 1] = 1 ∧ (-2 : Rat) ∈ ([-2, 1] : List Rat) ∧
    ¬ min_hipblas [-2, 1] ≤ -2 := by
  refine ⟨?_, by simp, ?_⟩ <;> norm_num [min_hipblas, isamin]

/-- C2 amended: for every nonempty CFL buffer of nonnegative values (CFL
buffers hold positive time-step bounds), the reduction performed by
`min_hipblas` returns exactly the minimum element value of the buffer —
in particular when the minimum occurs at the first or at the last element
and when all elements are equal — and `computeDt` returns that minimum
scaled by `0.5`.  On buffers containing negative values the code instead
returns the element of least absolute value. -/
theorem min_hipblas_nonneg_returns_min (xs : List Rat) (hne : xs ≠ [])
    (hnn : ∀ y ∈ xs, 0 ≤ y) :
    min_hipblas xs ∈ xs ∧ (∀ y ∈ xs, min_hipblas xs ≤ y) ∧
    computeDt xs = min_hipblas xs * (1/2) := by
  have hmem := min_hipblas_mem xs hne
  refine ⟨hmem, ?_, rfl⟩
  intro y hy
  have h1 := min_hipblas_abs_le xs y hy
  rwa [abs_of_nonneg (hnn _ hmem), abs_of_nonneg (hnn _ hy)] at h1

/-- C2 witness: on the buffer `[3, 1, 2]` of nonnegative values the
reduction returns the minimum `1` and `computeDt` returns it halved. -/
theorem min_hipblas_nonneg_returns_min_witness :
    (([3, 1, 2] : List Rat) ≠ [] ∧ ∀ y ∈ ([3, 1, 2] : List Rat), 0 ≤ y) ∧
    (min_hipblas [3, 1, 2] ∈ ([3, 1, 2] : List Rat) ∧
     (∀ y ∈ ([3, 1, 2] : List Rat), min_hipblas [3, 1, 2] ≤ y) ∧
     computeDt [3, 1, 2] = min_hipblas [3, 1, 2] * (1/2)) := by
  exact ⟨⟨by simp, by norm_num⟩,
    min_hipblas_nonneg_returns_min [3, 1, 2] (by simp) (by norm_num)⟩

end EE2D
